import Mathlib

/-!
Verification of the prefix-exclusion engine of conf/allowedips_exclude.go.

The Go code manipulates netip.Addr / netip.Prefix values.  We model an
address as its family tag (IPv4 or IPv6) together with its value read as a
big-endian natural number of the family's bit width, and a prefix as an
address plus a prefix length.  The netip operations used by the code
(Masked, Overlaps, Contains, Bits, Addr, Is4) are modelled arithmetically:
masking a value to its first `bits` bits is division and multiplication by
2 ^ (width - bits).

The string-handling boundary (parseWstunnelHostExcludes and friends)
models Go strings as lists of characters; the external collaborators
(netip.ParsePrefix, netip.ParseAddr, resolveHostname) are abstract
function parameters, since only their success/failure drives the code
under verification.
-/

/-- Address family of a netip.Addr: IPv4 (32-bit) or IPv6 (128-bit). -/
inductive Family where
  | v4
  | v6
deriving DecidableEq

/-- Bit width of an address family. -/
def Family.width : Family → Nat
  | .v4 => 32
  | .v6 => 128

/-- Model of netip.Addr: a family tag plus the address value read as a
big-endian natural number (less than 2 ^ width for values built by netip). -/
structure Addr where
  family : Family
  val : Nat
deriving DecidableEq

/-- Model of netip.Addr.Is4. -/
def Addr.is4 (a : Addr) : Bool := a.family == Family.v4

/-- Model of netip.Prefix: an address and a prefix length (Bits). -/
structure Pfx where
  addr : Addr
  bits : Nat
deriving DecidableEq

/-- Keep only the first `bits` bits (big-endian) of an address value of
width `w`: the arithmetic form of masking off all bits past the prefix
length. -/
def maskAddr (w a bits : Nat) : Nat := a / 2 ^ (w - bits) * 2 ^ (w - bits)

/-- Model of netip.Prefix.Masked: canonicalize the prefix by zeroing all
address bits beyond the prefix length. -/
def Pfx.masked (p : Pfx) : Pfx :=
  ⟨⟨p.addr.family, maskAddr p.addr.family.width p.addr.val p.bits⟩, p.bits⟩

/-- Model of netip.Prefix.Contains: the prefix and the address have the
same family and agree on the first Bits bits. -/
def Pfx.containsA (p : Pfx) (a : Addr) : Bool :=
  p.addr.family == a.family &&
    maskAddr p.addr.family.width a.val p.bits ==
      maskAddr p.addr.family.width p.addr.val p.bits

/-- Model of netip.Prefix.Overlaps: same family and agreement on the first
min(p.Bits, q.Bits) bits. -/
def Pfx.overlaps (p q : Pfx) : Bool :=
  p.addr.family == q.addr.family &&
    maskAddr p.addr.family.width p.addr.val (min p.bits q.bits) ==
      maskAddr p.addr.family.width q.addr.val (min p.bits q.bits)

/-- Translation of maxPrefixBits: 32 for an IPv4 prefix, 128 for IPv6. -/
def maxPrefixBits (p : Pfx) : Nat := if p.addr.is4 then 32 else 128

/-- Translation of setBit128 on the integer view of the 16-byte array:
setting bit `bitIndex` of byte `byteIndex` of a big-endian [16]byte sets
bit (15 - byteIndex) * 8 + bitIndex of the 128-bit value. -/
def setBit128 (addr : Nat) (bit : Nat) : Nat :=
  let byteIndex := bit / 8
  let bitIndex := 7 - bit % 8
  addr ||| (1 <<< ((15 - byteIndex) * 8 + bitIndex))

/-- Translation of splitPrefix: halve a prefix into two prefixes one bit
longer, the left keeping the address, the right with bit `bits`
(big-endian, 0-based) set. -/
def splitPfx (p : Pfx) : Pfx × Pfx :=
  let bits := p.bits
  match p.addr.family with
  | .v4 =>
    let v := p.addr.val
    let bit := 1 <<< (31 - bits)
    let right := v ||| bit
    (⟨p.addr, bits + 1⟩, ⟨⟨Family.v4, right⟩, bits + 1⟩)
  | .v6 =>
    (⟨p.addr, bits + 1⟩, ⟨⟨Family.v6, setBit128 p.addr.val bits⟩, bits + 1⟩)

@[simp]
theorem Pfx.masked_bits (p : Pfx) : p.masked.bits = p.bits := rfl

@[simp]
theorem Pfx.masked_family (p : Pfx) : p.masked.addr.family = p.addr.family := rfl

@[simp]
theorem splitPfx_fst (p : Pfx) : (splitPfx p).1 = ⟨p.addr, p.bits + 1⟩ := by
  cases h : p.addr.family <;> simp [splitPfx, h]

theorem splitPfx_fst_bits (p : Pfx) : (splitPfx p).1.bits = p.bits + 1 := by
  cases h : p.addr.family <;> simp [splitPfx, h]

theorem splitPfx_fst_family (p : Pfx) : (splitPfx p).1.addr.family = p.addr.family := by
  cases h : p.addr.family <;> simp [splitPfx, h]

@[simp]
theorem splitPfx_snd_bits (p : Pfx) : (splitPfx p).2.bits = p.bits + 1 := by
  cases h : p.addr.family <;> simp [splitPfx, h]

@[simp]
theorem splitPfx_snd_family (p : Pfx) : (splitPfx p).2.addr.family = p.addr.family := by
  cases h : p.addr.family <;> simp [splitPfx, h]

theorem maxPrefixBits_eq_width (p : Pfx) : maxPrefixBits p = p.addr.family.width := by
  cases h : p.addr.family <;> simp [maxPrefixBits, Addr.is4, h, Family.width]

theorem maxPrefixBits_congr {p q : Pfx} (h : p.addr.family = q.addr.family) :
    maxPrefixBits p = maxPrefixBits q := by
  rw [maxPrefixBits_eq_width, maxPrefixBits_eq_width, h]

@[simp]
theorem maxPrefixBits_masked (p : Pfx) : maxPrefixBits p.masked = maxPrefixBits p :=
  maxPrefixBits_congr (Pfx.masked_family p)

@[simp]
theorem maxPrefixBits_splitPfx_fst (p : Pfx) :
    maxPrefixBits (splitPfx p).1 = maxPrefixBits p := by
  rw [splitPfx_fst]; exact maxPrefixBits_congr rfl

@[simp]
theorem maxPrefixBits_splitPfx_snd (p : Pfx) :
    maxPrefixBits (splitPfx p).2 = maxPrefixBits p :=
  maxPrefixBits_congr (splitPfx_snd_family p)

/-- Translation of subtractPrefix: recursively carve `remove` out of
`base`, splitting `base` in half until the removed range is isolated. -/
def subtractPfx (base remove : Pfx) : List Pfx :=
  if !(base.masked.overlaps remove.masked) then [base.masked]
  else if remove.masked.containsA base.masked.addr &&
      decide (remove.masked.bits ≤ base.masked.bits) then []
  else if _h : base.masked.bits ≥ maxPrefixBits base.masked then [base.masked]
  else if remove.masked.overlaps (splitPfx base.masked).1 then
    subtractPfx (splitPfx base.masked).1 remove ++ [(splitPfx base.masked).2]
  else (splitPfx base.masked).1 :: subtractPfx (splitPfx base.masked).2 remove
termination_by maxPrefixBits base - base.bits
decreasing_by
  all_goals
    simp only [maxPrefixBits_splitPfx_fst, maxPrefixBits_splitPfx_snd, splitPfx_fst_bits,
      splitPfx_snd_bits, maxPrefixBits_masked, Pfx.masked_bits] at *
    omega

/-- Fuel-indexed structural twin of subtractPfx, used to evaluate the
recursion and to induct on its depth; it agrees with subtractPfx whenever
the fuel exceeds width - bits (see subtractPfxF_eq). -/
def subtractPfxF : Nat → Pfx → Pfx → List Pfx
  | 0, base, _ => [base.masked]
  | fuel + 1, base, remove =>
    if !(base.masked.overlaps remove.masked) then [base.masked]
    else if remove.masked.containsA base.masked.addr &&
        decide (remove.masked.bits ≤ base.masked.bits) then []
    else if base.masked.bits ≥ maxPrefixBits base.masked then [base.masked]
    else if remove.masked.overlaps (splitPfx base.masked).1 then
      subtractPfxF fuel (splitPfx base.masked).1 remove ++ [(splitPfx base.masked).2]
    else (splitPfx base.masked).1 :: subtractPfxF fuel (splitPfx base.masked).2 remove

/-- Loop body of subtractPrefixList over the exclusion list: skip an
exclusion of the other family, otherwise replace the working fragments by
the concatenation of subtracting the masked exclusion from each. -/
def excludeStep (b : Pfx) (fragments : List Pfx) (r : Pfx) : List Pfx :=
  if b.addr.is4 != r.addr.is4 then fragments
  else fragments.flatMap (fun f => subtractPfx f r.masked)

/-- Inner loop of subtractPrefixList for a single base entry: fold every
same-family exclusion over the working fragment list, starting from the
masked base. -/
def baseFragments (b : Pfx) (remove : List Pfx) : List Pfx :=
  remove.foldl (excludeStep b) [b.masked]

/-- Translation of subtractPrefixList: apply every exclusion to every base
range, concatenating the per-base fragment lists in base order. -/
def subtractPrefixList (base remove : List Pfx) : List Pfx :=
  base.flatMap (fun b => baseFragments b remove)

/-- Translation of prefixFromAddr: promote a bare address to a host range
of full width. -/
def prefixFromAddr (addr : Addr) : Pfx :=
  if addr.is4 then ⟨addr, 32⟩ else ⟨addr, 128⟩

/-- Validity invariant maintained by netip for every constructed value:
the address value fits the family width and the prefix length is at most
the width. -/
def Pfx.Valid (p : Pfx) : Prop :=
  p.addr.val < 2 ^ p.addr.family.width ∧ p.bits ≤ p.addr.family.width

instance (p : Pfx) : Decidable p.Valid := by unfold Pfx.Valid; infer_instance

/-- A prefix is canonical when masking changes nothing: every address bit
beyond the prefix length is zero. -/
def Pfx.Canonical (p : Pfx) : Prop := p.masked = p

instance (p : Pfx) : Decidable p.Canonical := by unfold Pfx.Canonical; infer_instance

/-- An address list of prefixes covers an address when some member
contains it. -/
def coversAddr (ps : List Pfx) (a : Addr) : Bool := ps.any (fun p => p.containsA a)

/-- Error kinds raised by the exclusion-set resolver, mirroring the four
error returns of splitCommaList and parseWstunnelHostExcludes; each
carries the offending token where the Go code formats it into the
message. -/
inductive ParseErr where
  | emptyListEntry
  | invalidCIDR (tok : List Char)
  | resolveFailed (tok : List Char)
  | invalidResolved (tok : List Char)
deriving DecidableEq

/-- Model of strings.Split(s, ",") on a string viewed as its character
list: cut at every comma, keeping empty pieces, never returning an empty
list. -/
def splitComma : List Char → List (List Char)
  | [] => [[]]
  | c :: rest =>
    match splitComma rest with
    | [] => [[c]]
    | t :: ts => if c = ',' then [] :: t :: ts else (c :: t) :: ts

/-- Model of strings.TrimSpace on a character list: drop whitespace from
both ends. -/
def trimSpace (s : List Char) : List Char :=
  ((s.dropWhile Char.isWhitespace).reverse.dropWhile Char.isWhitespace).reverse

/-- Loop body of splitCommaList: trim every piece, failing on the first
piece that trims to empty. -/
def checkTokens : List (List Char) → Except ParseErr (List (List Char))
  | [] => .ok []
  | x :: rest =>
    let t := trimSpace x
    if t.length = 0 then .error .emptyListEntry
    else
      match checkTokens rest with
      | .error e => .error e
      | .ok r => .ok (t :: r)

/-- Translation of splitCommaList: split on commas and trim, rejecting
empty entries. -/
def splitCommaList (s : List Char) : Except ParseErr (List (List Char)) :=
  checkTokens (splitComma s)

/-- Loop body of parseWstunnelHostExcludes over the trimmed tokens.  The
external collaborators are abstract: parseCIDR models netip.ParsePrefix,
parseAddr models netip.ParseAddr, and resolve models resolveHostname;
the Go code only branches on their success, so they are modelled as
Option-returning parameters. -/
def parseExcludeTokens (resolve : List Char → Option (List Char))
    (parseCIDR : List Char → Option Pfx) (parseAddr : List Char → Option Addr) :
    List (List Char) → Except ParseErr (List Pfx)
  | [] => .ok []
  | part :: rest =>
    if part.contains '/' then
      match parseCIDR part with
      | none => .error (.invalidCIDR part)
      | some p =>
        match parseExcludeTokens resolve parseCIDR parseAddr rest with
        | .error e => .error e
        | .ok others => .ok (p.masked :: others)
    else
      match parseAddr part with
      | some a =>
        match parseExcludeTokens resolve parseCIDR parseAddr rest with
        | .error e => .error e
        | .ok others => .ok (prefixFromAddr a :: others)
      | none =>
        match resolve part with
        | none => .error (.resolveFailed part)
        | some resolved =>
          match parseAddr resolved with
          | none => .error (.invalidResolved part)
          | some a =>
            match parseExcludeTokens resolve parseCIDR parseAddr rest with
            | .error e => .error e
            | .ok others => .ok (prefixFromAddr a :: others)

/-- Translation of parseWstunnelHostExcludes: split the specification
string into trimmed tokens and turn each token into a masked exclusion
range. -/
def parseWstunnelHostExcludes (resolve : List Char → Option (List Char))
    (parseCIDR : List Char → Option Pfx) (parseAddr : List Char → Option Addr)
    (s : List Char) : Except ParseErr (List Pfx) :=
  match splitCommaList s with
  | .error e => .error e
  | .ok parts => parseExcludeTokens resolve parseCIDR parseAddr parts

/-- Model of conf.Peer restricted to the field the code touches. -/
structure Peer where
  allowedIPs : List Pfx
deriving DecidableEq

/-- Model of the interface section: the WSTUNNEL_HOST specification
string. -/
structure Interface where
  wstunnelHost : List Char
deriving DecidableEq

/-- Model of conf.Config restricted to the fields the code touches. -/
structure Config where
  interface : Interface
  peers : List Peer
deriving DecidableEq

/-- Translation of Config.ApplyWstunnelHostExclusions.  The Go method
mutates config.Peers in place and returns an error; the model returns the
pair of the error outcome and the resulting configuration (logging is a
side effect with no data flow and is dropped). -/
def ApplyWstunnelHostExclusions (resolve : List Char → Option (List Char))
    (parseCIDR : List Char → Option Pfx) (parseAddr : List Char → Option Addr)
    (config : Config) : Except ParseErr Unit × Config :=
  if trimSpace config.interface.wstunnelHost = [] then (.ok (), config)
  else
    match parseWstunnelHostExcludes resolve parseCIDR parseAddr
        config.interface.wstunnelHost with
    | .error e => (.error e, config)
    | .ok excludes =>
      if excludes.length = 0 then (.ok (), config)
      else
        (.ok (), { config with
          peers := config.peers.map (fun peer =>
            if peer.allowedIPs.length = 0 then peer
            else { peer with allowedIPs := subtractPrefixList peer.allowedIPs excludes }) })

theorem maskAddr_le (w a bits : Nat) : maskAddr w a bits ≤ a :=
  Nat.div_mul_le_self _ _

theorem maskAddr_eq_iff {w a c bits : Nat} :
    maskAddr w a bits = maskAddr w c bits ↔
      a / 2 ^ (w - bits) = c / 2 ^ (w - bits) := by
  unfold maskAddr
  constructor
  · exact fun h => Nat.eq_of_mul_eq_mul_right (Nat.two_pow_pos _) h
  · intro h; rw [h]

theorem div_mul_eq_self_iff {a n : Nat} : a / n * n = a ↔ n ∣ a := by
  constructor
  · intro h
    exact ⟨a / n, by rw [Nat.mul_comm]; exact h.symm⟩
  · exact Nat.div_mul_cancel

theorem maskAddr_idem (w a bits : Nat) :
    maskAddr w (maskAddr w a bits) bits = maskAddr w a bits := by
  unfold maskAddr
  rw [Nat.mul_div_cancel _ (Nat.two_pow_pos _)]

theorem div_pow_congr {k1 k2 a c : Nat} (hk : k2 ≤ k1)
    (h : a / 2 ^ k2 = c / 2 ^ k2) : a / 2 ^ k1 = c / 2 ^ k1 := by
  have he : (2 : Nat) ^ k1 = 2 ^ k2 * 2 ^ (k1 - k2) := by
    rw [← Nat.pow_add]; congr 1; omega
  rw [he, ← Nat.div_div_eq_div_mul, ← Nat.div_div_eq_div_mul, h]

theorem Pfx.canonical_iff_dvd {p : Pfx} :
    p.Canonical ↔ 2 ^ (p.addr.family.width - p.bits) ∣ p.addr.val := by
  obtain ⟨⟨f, v⟩, b⟩ := p
  simp only [Pfx.Canonical, Pfx.masked, Pfx.mk.injEq, Addr.mk.injEq, true_and,
    and_true]
  exact div_mul_eq_self_iff

theorem Pfx.masked_canonical (p : Pfx) : p.masked.Canonical := by
  unfold Pfx.Canonical Pfx.masked
  simp [maskAddr_idem]

theorem Pfx.masked_valid {p : Pfx} (h : p.Valid) : p.masked.Valid :=
  ⟨Nat.lt_of_le_of_lt (maskAddr_le _ _ _) h.1, h.2⟩

theorem Pfx.containsA_iff {p : Pfx} {a : Addr} :
    p.containsA a = true ↔ p.addr.family = a.family ∧
      a.val / 2 ^ (p.addr.family.width - p.bits) =
        p.addr.val / 2 ^ (p.addr.family.width - p.bits) := by
  simp only [Pfx.containsA, Bool.and_eq_true, beq_iff_eq]
  exact and_congr_right fun _ => maskAddr_eq_iff

theorem Pfx.containsA_self (p : Pfx) : p.containsA p.addr = true :=
  Pfx.containsA_iff.mpr ⟨rfl, rfl⟩

theorem Pfx.overlaps_iff {p q : Pfx} :
    p.overlaps q = true ↔ p.addr.family = q.addr.family ∧
      p.addr.val / 2 ^ (p.addr.family.width - min p.bits q.bits) =
        q.addr.val / 2 ^ (p.addr.family.width - min p.bits q.bits) := by
  simp only [Pfx.overlaps, Bool.and_eq_true, beq_iff_eq]
  exact and_congr_right fun _ => maskAddr_eq_iff

theorem Pfx.overlaps_iff_shared {p q : Pfx} :
    p.overlaps q = true ↔ ∃ a : Addr, p.containsA a = true ∧ q.containsA a = true := by
  constructor
  · intro h
    obtain ⟨hf, hm⟩ := Pfx.overlaps_iff.mp h
    have hw : q.addr.family.width = p.addr.family.width := by rw [hf]
    rcases Nat.le_total p.bits q.bits with hb | hb
    · refine ⟨q.addr, ?_, Pfx.containsA_self q⟩
      refine Pfx.containsA_iff.mpr ⟨hf, ?_⟩
      rw [Nat.min_eq_left hb] at hm
      exact hm.symm
    · refine ⟨p.addr, Pfx.containsA_self p, ?_⟩
      refine Pfx.containsA_iff.mpr ⟨hf.symm, ?_⟩
      rw [Nat.min_eq_right hb] at hm
      rw [hw]
      exact hm
  · rintro ⟨a, hp, hq⟩
    obtain ⟨hfp, hmp⟩ := Pfx.containsA_iff.mp hp
    obtain ⟨hfq, hmq⟩ := Pfx.containsA_iff.mp hq
    have hf : p.addr.family = q.addr.family := hfp.trans hfq.symm
    have hw : q.addr.family.width = p.addr.family.width := by rw [hf]
    refine Pfx.overlaps_iff.mpr ⟨hf, ?_⟩
    have h1 : a.val / 2 ^ (p.addr.family.width - min p.bits q.bits) =
        p.addr.val / 2 ^ (p.addr.family.width - min p.bits q.bits) :=
      div_pow_congr (by omega) hmp
    have h2 : a.val / 2 ^ (p.addr.family.width - min p.bits q.bits) =
        q.addr.val / 2 ^ (p.addr.family.width - min p.bits q.bits) := by
      rw [hw] at hmq
      exact div_pow_congr (by have := Nat.min_le_right p.bits q.bits; omega) hmq
    rw [← h1, h2]

theorem overlaps_eq_false_disjoint {p q : Pfx} (h : p.overlaps q = false) (a : Addr) :
    ¬(p.containsA a = true ∧ q.containsA a = true) := by
  rintro ⟨h1, h2⟩
  have := Pfx.overlaps_iff_shared.mpr ⟨a, h1, h2⟩
  rw [h] at this
  exact Bool.false_ne_true this

theorem containsA_mono {p q : Pfx} (hb : p.bits ≤ q.bits)
    (hpq : p.containsA q.addr = true) :
    ∀ a : Addr, q.containsA a = true → p.containsA a = true := by
  intro a hqa
  obtain ⟨hf1, hm1⟩ := Pfx.containsA_iff.mp hpq
  obtain ⟨hf2, hm2⟩ := Pfx.containsA_iff.mp hqa
  refine Pfx.containsA_iff.mpr ⟨hf1.trans hf2, ?_⟩
  have hw : q.addr.family.width = p.addr.family.width := by rw [hf1]
  rw [hw] at hm2
  have hm2' : a.val / 2 ^ (p.addr.family.width - p.bits) =
      q.addr.val / 2 ^ (p.addr.family.width - p.bits) :=
    div_pow_congr (by omega) hm2
  rw [hm2', hm1]

theorem containsA_bounds {p : Pfx} {a : Addr} (hc : p.Canonical)
    (h : p.containsA a = true) :
    p.addr.val ≤ a.val ∧
      a.val < p.addr.val + 2 ^ (p.addr.family.width - p.bits) := by
  obtain ⟨-, hdiv⟩ := Pfx.containsA_iff.mp h
  have hdvd := Pfx.canonical_iff_dvd.mp hc
  have hv : p.addr.val / 2 ^ (p.addr.family.width - p.bits) *
      2 ^ (p.addr.family.width - p.bits) = p.addr.val := Nat.div_mul_cancel hdvd
  constructor
  · calc p.addr.val
        = p.addr.val / 2 ^ (p.addr.family.width - p.bits) *
            2 ^ (p.addr.family.width - p.bits) := hv.symm
      _ = a.val / 2 ^ (p.addr.family.width - p.bits) *
            2 ^ (p.addr.family.width - p.bits) := by rw [hdiv]
      _ ≤ a.val := Nat.div_mul_le_self _ _
  · have hmod : a.val % 2 ^ (p.addr.family.width - p.bits) <
        2 ^ (p.addr.family.width - p.bits) := Nat.mod_lt _ (Nat.two_pow_pos _)
    have hsplit := Nat.div_add_mod a.val (2 ^ (p.addr.family.width - p.bits))
    have hstep : 2 ^ (p.addr.family.width - p.bits) *
        (a.val / 2 ^ (p.addr.family.width - p.bits)) = p.addr.val := by
      rw [hdiv, Nat.mul_comm, hv]
    omega

theorem lor_two_pow_eq_add {c k : Nat} :
    2 * c * 2 ^ k ||| 2 ^ k = 2 * c * 2 ^ k + 2 ^ k := by
  have h2 : 2 * c * 2 ^ k + 2 ^ k = (2 * c + 1) * 2 ^ k := by ring
  rw [h2]
  apply Nat.eq_of_testBit_eq
  intro i
  rw [Nat.testBit_lor, ← Nat.shiftLeft_eq, ← Nat.shiftLeft_eq (2 * c + 1),
    Nat.testBit_shiftLeft, Nat.testBit_shiftLeft, Nat.testBit_two_pow]
  rcases Nat.lt_trichotomy i k with h | h | h
  · simp [show ¬ i ≥ k by omega, show k ≠ i by omega]
  · subst h
    simp only [ge_iff_le, Nat.le_refl, decide_True, Bool.true_and, Nat.sub_self,
      Nat.testBit_zero]
    have h1 : (2 * c) % 2 = 0 := by omega
    have h2 : (2 * c + 1) % 2 = 1 := by omega
    simp [h1, h2]
  · have hik : i - k = (i - k - 1) + 1 := by omega
    rw [hik, Nat.testBit_succ, Nat.testBit_succ]
    have h1 : 2 * c / 2 = c := by omega
    have h2 : (2 * c + 1) / 2 = c := by omega
    simp [h1, h2, show i ≥ k by omega, show k ≠ i by omega]

theorem splitPfx_snd_addr {p : Pfx} (hc : p.Canonical)
    (hb : p.bits < p.addr.family.width) :
    (splitPfx p).2.addr.val = p.addr.val + 2 ^ (p.addr.family.width - 1 - p.bits) := by
  have hdvd := Pfx.canonical_iff_dvd.mp hc
  obtain ⟨⟨f, v⟩, b⟩ := p
  simp only at hdvd hb ⊢
  cases f with
  | v4 =>
    simp only [splitPfx, setBit128, Family.width] at hdvd hb ⊢
    obtain ⟨c, hv⟩ := hdvd
    have h32 : 32 - b = (31 - b) + 1 := by omega
    have hval : v = 2 * c * 2 ^ (31 - b) := by
      rw [hv, h32]; ring
    have hexp : 32 - 1 - b = 31 - b := by omega
    rw [Nat.shiftLeft_eq, Nat.one_mul, hexp, hval]
    exact lor_two_pow_eq_add
  | v6 =>
    simp only [splitPfx, setBit128, Family.width] at hdvd hb ⊢
    obtain ⟨c, hv⟩ := hdvd
    have hm8 : b % 8 < 8 := Nat.mod_lt _ (by omega)
    have hd8 := Nat.div_add_mod b 8
    have hexp : (15 - b / 8) * 8 + (7 - b % 8) = 127 - b := by omega
    have h128 : 128 - b = (127 - b) + 1 := by omega
    have hval : v = 2 * c * 2 ^ (127 - b) := by
      rw [hv, h128]; ring
    have hexp2 : 128 - 1 - b = 127 - b := by omega
    rw [Nat.shiftLeft_eq, Nat.one_mul, hexp, hexp2, hval]
    exact lor_two_pow_eq_add

theorem splitPfx_snd_eq {p : Pfx} (hc : p.Canonical)
    (hb : p.bits < p.addr.family.width) :
    (splitPfx p).2 =
      ⟨⟨p.addr.family, p.addr.val + 2 ^ (p.addr.family.width - 1 - p.bits)⟩,
        p.bits + 1⟩ := by
  have h1 := splitPfx_snd_bits p
  have h2 := splitPfx_snd_family p
  have h3 := splitPfx_snd_addr hc hb
  rcases hsp : (splitPfx p).2 with ⟨⟨f2, v2⟩, b2⟩
  rw [hsp] at h1 h2 h3
  simp only at h1 h2 h3
  rw [h1, h2, h3]

theorem splitPfx_fst_canonical {p : Pfx} (hc : p.Canonical) :
    (splitPfx p).1.Canonical := by
  rw [splitPfx_fst]
  rw [Pfx.canonical_iff_dvd] at hc ⊢
  dsimp only
  exact dvd_trans (Nat.pow_dvd_pow 2 (by omega)) hc

theorem splitPfx_snd_canonical {p : Pfx} (hc : p.Canonical)
    (hb : p.bits < p.addr.family.width) : (splitPfx p).2.Canonical := by
  rw [splitPfx_snd_eq hc hb, Pfx.canonical_iff_dvd]
  have hdvd := Pfx.canonical_iff_dvd.mp hc
  dsimp only
  show 2 ^ (p.addr.family.width - (p.bits + 1)) ∣
    p.addr.val + 2 ^ (p.addr.family.width - 1 - p.bits)
  have he : p.addr.family.width - (p.bits + 1) = p.addr.family.width - 1 - p.bits := by
    omega
  rw [he]
  exact Nat.dvd_add (dvd_trans (Nat.pow_dvd_pow 2 (by omega)) hdvd) dvd_rfl

theorem splitPfx_fst_valid {p : Pfx} (hv : p.Valid)
    (hb : p.bits < p.addr.family.width) : (splitPfx p).1.Valid := by
  rw [splitPfx_fst]
  refine ⟨hv.1, ?_⟩
  dsimp only
  omega

theorem splitPfx_snd_valid {p : Pfx} (hv : p.Valid) (hc : p.Canonical)
    (hb : p.bits < p.addr.family.width) : (splitPfx p).2.Valid := by
  rw [splitPfx_snd_eq hc hb]
  refine ⟨?_, by dsimp only; omega⟩
  dsimp only
  show p.addr.val + 2 ^ (p.addr.family.width - 1 - p.bits) < 2 ^ p.addr.family.width
  obtain ⟨c, hcv⟩ := Pfx.canonical_iff_dvd.mp hc
  have hv1 := hv.1
  have hw2 : 2 ^ p.addr.family.width =
      2 ^ (p.addr.family.width - p.bits) * 2 ^ p.bits := by
    rw [← Nat.pow_add]; congr 1; omega
  have hlt : c < 2 ^ p.bits := by
    apply Nat.lt_of_mul_lt_mul_left (a := 2 ^ (p.addr.family.width - p.bits))
    rw [← hcv, ← hw2]
    exact hv1
  have h1 : p.addr.val + 2 ^ (p.addr.family.width - p.bits) ≤
      2 ^ p.addr.family.width := by
    calc p.addr.val + 2 ^ (p.addr.family.width - p.bits)
        = 2 ^ (p.addr.family.width - p.bits) * c +
            2 ^ (p.addr.family.width - p.bits) := by rw [hcv]
      _ = 2 ^ (p.addr.family.width - p.bits) * (c + 1) := by ring
      _ ≤ 2 ^ (p.addr.family.width - p.bits) * 2 ^ p.bits :=
          Nat.mul_le_mul_left _ hlt
      _ = 2 ^ p.addr.family.width := hw2.symm
  have h2 : 2 ^ (p.addr.family.width - p.bits) =
      2 ^ (p.addr.family.width - 1 - p.bits) * 2 := by
    rw [← Nat.pow_succ]; congr 1; omega
  have h3 := Nat.two_pow_pos (p.addr.family.width - 1 - p.bits)
  omega

theorem splitPfx_mem {p : Pfx} (hc : p.Canonical)
    (hb : p.bits < p.addr.family.width) (a : Addr) :
    (p.containsA a = true ↔
      ((splitPfx p).1.containsA a = true ∨ (splitPfx p).2.containsA a = true)) ∧
    ¬((splitPfx p).1.containsA a = true ∧ (splitPfx p).2.containsA a = true) := by
  rw [splitPfx_fst, splitPfx_snd_eq hc hb]
  obtain ⟨c, hcv⟩ := Pfx.canonical_iff_dvd.mp hc
  obtain ⟨⟨f, v⟩, b⟩ := p
  simp only [Pfx.containsA_iff] at hb hcv ⊢
  have he1 : f.width - (b + 1) = f.width - 1 - b := by omega
  rw [he1]
  have hsplit : (2 : Nat) ^ (f.width - b) = 2 ^ (f.width - 1 - b) * 2 := by
    rw [← Nat.pow_succ]; congr 1; omega
  have hA : v / 2 ^ (f.width - 1 - b) = 2 * c := by
    have : v = 2 ^ (f.width - 1 - b) * (2 * c) := by
      rw [hcv, hsplit]; ring
    rw [this, Nat.mul_div_cancel_left _ (Nat.two_pow_pos _)]
  have hB : (v + 2 ^ (f.width - 1 - b)) / 2 ^ (f.width - 1 - b) = 2 * c + 1 := by
    have : v + 2 ^ (f.width - 1 - b) = 2 ^ (f.width - 1 - b) * (2 * c + 1) := by
      rw [hcv, hsplit]; ring
    rw [this, Nat.mul_div_cancel_left _ (Nat.two_pow_pos _)]
  have hC : v / 2 ^ (f.width - b) = c := by
    rw [hcv, Nat.mul_div_cancel_left _ (Nat.two_pow_pos _)]
  have hD : a.val / 2 ^ (f.width - b) = a.val / 2 ^ (f.width - 1 - b) / 2 := by
    rw [Nat.div_div_eq_div_mul, ← hsplit]
  rw [hA, hB, hC, hD]
  constructor
  · constructor
    · rintro ⟨hP, hx⟩
      have := hx
      rcases (by omega : a.val / 2 ^ (f.width - 1 - b) = 2 * c ∨
          a.val / 2 ^ (f.width - 1 - b) = 2 * c + 1) with h | h
      · exact Or.inl ⟨hP, h⟩
      · exact Or.inr ⟨hP, h⟩
    · rintro (⟨hP, h⟩ | ⟨hP, h⟩) <;> exact ⟨hP, by omega⟩
  · rintro ⟨⟨-, h1⟩, ⟨-, h2⟩⟩
    omega

theorem Pfx.overlaps_comm (p q : Pfx) : p.overlaps q = q.overlaps p := by
  cases hp : p.overlaps q <;> cases hq : q.overlaps p
  · rfl
  · obtain ⟨a, h1, h2⟩ := Pfx.overlaps_iff_shared.mp hq
    rw [Pfx.overlaps_iff_shared.mpr ⟨a, h2, h1⟩] at hp
    exact absurd hp (by simp)
  · obtain ⟨a, h1, h2⟩ := Pfx.overlaps_iff_shared.mp hp
    rw [Pfx.overlaps_iff_shared.mpr ⟨a, h2, h1⟩] at hq
    exact absurd hq (by simp)
  · rfl

@[simp]
theorem coversAddr_nil (a : Addr) : coversAddr [] a = false := rfl

@[simp]
theorem coversAddr_cons (p : Pfx) (ps : List Pfx) (a : Addr) :
    coversAddr (p :: ps) a = (p.containsA a || coversAddr ps a) := by
  simp [coversAddr]

@[simp]
theorem coversAddr_append (xs ys : List Pfx) (a : Addr) :
    coversAddr (xs ++ ys) a = (coversAddr xs a || coversAddr ys a) := by
  simp [coversAddr]

theorem subtractPfxF_eq_subtractPfx :
    ∀ (fuel : Nat) (base remove : Pfx), maxPrefixBits base - base.bits < fuel →
      subtractPfxF fuel base remove = subtractPfx base remove := by
  intro fuel
  induction fuel with
  | zero =>
    intro base remove h
    exact absurd h (Nat.not_lt_zero _)
  | succ n ih =>
    intro base remove h
    rw [subtractPfx.eq_def]
    simp only [subtractPfxF]
    split_ifs with h1 h2 h3 h4
    · rfl
    · rfl
    · rfl
    · rw [ih]
      simp only [maxPrefixBits_splitPfx_fst, splitPfx_fst_bits, maxPrefixBits_masked,
        Pfx.masked_bits] at *
      omega
    · rw [ih]
      simp only [maxPrefixBits_splitPfx_snd, splitPfx_snd_bits, maxPrefixBits_masked,
        Pfx.masked_bits] at *
      omega

/-- Shape invariant of the fragments produced by the subtraction engine:
each fragment is canonical, of the base's family, no shorter than the
base, lies inside the masked base, and is valid whenever the base is. -/
def FragShape (base q : Pfx) : Prop :=
  q.Canonical ∧ q.addr.family = base.addr.family ∧ base.bits ≤ q.bits ∧
    base.masked.containsA q.addr = true ∧ (base.Valid → q.Valid)

theorem fragShape_refl_masked (base : Pfx) : FragShape base base.masked :=
  ⟨Pfx.masked_canonical base, rfl, Nat.le_refl _, Pfx.containsA_self _,
    fun hv => Pfx.masked_valid hv⟩

theorem fragShape_split_fst {base : Pfx}
    (hblt : base.masked.bits < base.masked.addr.family.width) :
    FragShape base (splitPfx base.masked).1 := by
  have hmc := Pfx.masked_canonical base
  refine ⟨splitPfx_fst_canonical hmc, ?_, ?_, ?_, ?_⟩
  · rw [splitPfx_fst_family, Pfx.masked_family]
  · rw [splitPfx_fst_bits, Pfx.masked_bits]; omega
  · rw [splitPfx_fst]
    exact Pfx.containsA_self base.masked
  · intro hv
    exact splitPfx_fst_valid (Pfx.masked_valid hv) hblt

theorem fragShape_split_snd {base : Pfx}
    (hblt : base.masked.bits < base.masked.addr.family.width) :
    FragShape base (splitPfx base.masked).2 := by
  have hmc := Pfx.masked_canonical base
  refine ⟨splitPfx_snd_canonical hmc hblt, ?_, ?_, ?_, ?_⟩
  · rw [splitPfx_snd_family, Pfx.masked_family]
  · rw [splitPfx_snd_bits, Pfx.masked_bits]; omega
  · exact (splitPfx_mem hmc hblt _).1.mpr (Or.inr (Pfx.containsA_self _))
  · intro hv
    exact splitPfx_snd_valid (Pfx.masked_valid hv) hmc hblt

theorem fragShape_trans {base mid q : Pfx} (h1 : FragShape base mid)
    (h2 : FragShape mid q) : FragShape base q := by
  obtain ⟨hc1, hf1, hb1, hcon1, hv1⟩ := h1
  obtain ⟨hc2, hf2, hb2, hcon2, hv2⟩ := h2
  have hmm : mid.masked = mid := hc1
  refine ⟨hc2, hf2.trans hf1, Nat.le_trans hb1 hb2, ?_, fun hv => hv2 (hv1 hv)⟩
  rw [hmm] at hcon2
  have hble : base.masked.bits ≤ mid.bits := by rw [Pfx.masked_bits]; exact hb1
  exact containsA_mono hble hcon1 q.addr hcon2

theorem subtractPfxF_shape :
    ∀ (fuel : Nat) (base remove q : Pfx), q ∈ subtractPfxF fuel base remove →
      FragShape base q := by
  intro fuel
  induction fuel with
  | zero =>
    intro base remove q hq
    simp only [subtractPfxF, List.mem_singleton] at hq
    subst hq
    exact fragShape_refl_masked base
  | succ n ih =>
    intro base remove q hq
    simp only [subtractPfxF] at hq
    split_ifs at hq with h1 h2 h3 h4
    · simp only [List.mem_singleton] at hq
      subst hq
      exact fragShape_refl_masked base
    · exact absurd hq (List.not_mem_nil q)
    · simp only [List.mem_singleton] at hq
      subst hq
      exact fragShape_refl_masked base
    · have hblt : base.masked.bits < base.masked.addr.family.width := by
        rw [maxPrefixBits_eq_width] at h3; omega
      rw [List.mem_append, List.mem_singleton] at hq
      rcases hq with hq | hq
      · exact fragShape_trans (fragShape_split_fst hblt) (ih _ _ _ hq)
      · subst hq
        exact fragShape_split_snd hblt
    · have hblt : base.masked.bits < base.masked.addr.family.width := by
        rw [maxPrefixBits_eq_width] at h3; omega
      rw [List.mem_cons] at hq
      rcases hq with hq | hq
      · subst hq
        exact fragShape_split_fst hblt
      · exact fragShape_trans (fragShape_split_snd hblt) (ih _ _ _ hq)

theorem subtractPfx_shape {base remove q : Pfx} (hq : q ∈ subtractPfx base remove) :
    FragShape base q := by
  rw [← subtractPfxF_eq_subtractPfx (maxPrefixBits base - base.bits + 1) base remove
    (by omega)] at hq
  exact subtractPfxF_shape _ _ _ _ hq

theorem subtractPfxF_covers :
    ∀ (fuel : Nat) (base remove : Pfx),
      maxPrefixBits base - base.bits < fuel →
      base.Valid → base.Canonical → remove.Valid → remove.Canonical →
      base.addr.family = remove.addr.family →
      ∀ a : Addr, coversAddr (subtractPfxF fuel base remove) a =
        (base.containsA a && !(remove.containsA a)) := by
  intro fuel
  induction fuel with
  | zero =>
    intro base remove h
    exact absurd h (Nat.not_lt_zero _)
  | succ n ih =>
    intro base remove hfuel hbv hbc hrv hrc hf a
    have hbm : base.masked = base := hbc
    have hrm : remove.masked = remove := hrc
    have hw := maxPrefixBits_eq_width base
    simp only [subtractPfxF, hbm, hrm]
    split_ifs with h1 h2 h3 h4
    · rw [Bool.not_eq_true'] at h1
      simp only [coversAddr_cons, coversAddr_nil, Bool.or_false]
      cases hba : base.containsA a <;> cases hra : remove.containsA a <;> simp
      exact absurd ⟨hba, hra⟩ (overlaps_eq_false_disjoint h1 a)
    · rw [Bool.and_eq_true] at h2
      obtain ⟨hcon, hle⟩ := h2
      rw [decide_eq_true_eq] at hle
      rw [coversAddr_nil]
      cases hba : base.containsA a
      · simp
      · have hra := containsA_mono hle hcon a hba
        simp [hra]
    · exfalso
      have hov : base.overlaps remove = true := by
        cases hcase : base.overlaps remove
        · exact absurd (by rw [hcase]; rfl) h1
        · rfl
      have hbw : base.bits = base.addr.family.width := by
        rw [hw] at h3
        exact Nat.le_antisymm hbv.2 h3
      have hrb : remove.bits ≤ base.bits := by
        have hr2 := hrv.2
        rw [← hf] at hr2
        omega
      obtain ⟨hfov, hdiv⟩ := Pfx.overlaps_iff.mp hov
      rw [Nat.min_eq_right hrb] at hdiv
      have hcont : remove.containsA base.addr = true := by
        refine Pfx.containsA_iff.mpr ⟨hf.symm, ?_⟩
        have hww : remove.addr.family.width = base.addr.family.width := by rw [hf]
        rw [hww]
        exact hdiv
      exact h2 (by rw [Bool.and_eq_true]; exact ⟨hcont, decide_eq_true hrb⟩)
    all_goals
      have hov : base.overlaps remove = true := by
        cases hcase : base.overlaps remove
        · exact absurd (by rw [hcase]; rfl) h1
        · rfl
      have hnc : ¬(remove.containsA base.addr = true ∧ remove.bits ≤ base.bits) := by
        rintro ⟨hc', hl'⟩
        exact h2 (by rw [Bool.and_eq_true]; exact ⟨hc', decide_eq_true hl'⟩)
      have hblt : base.bits < base.addr.family.width := by
        rw [hw] at h3
        omega
      have hrbgt : base.bits < remove.bits := by
        by_contra hgt
        have hle := Nat.le_of_not_lt hgt
        obtain ⟨hfov, hdiv⟩ := Pfx.overlaps_iff.mp hov
        rw [Nat.min_eq_right hle] at hdiv
        refine hnc ⟨Pfx.containsA_iff.mpr ⟨hf.symm, ?_⟩, hle⟩
        have hww : remove.addr.family.width = base.addr.family.width := by rw [hf]
        rw [hww]
        exact hdiv
      have hbcr : base.containsA remove.addr = true := by
        obtain ⟨hfov, hdiv⟩ := Pfx.overlaps_iff.mp hov
        rw [Nat.min_eq_left (by omega : base.bits ≤ remove.bits)] at hdiv
        exact Pfx.containsA_iff.mpr ⟨hf, hdiv.symm⟩
      have hpart := fun x => splitPfx_mem hbc hblt x
      have hfuelL : maxPrefixBits (splitPfx base).1 - (splitPfx base).1.bits < n := by
        rw [maxPrefixBits_splitPfx_fst, splitPfx_fst_bits]
        omega
      have hfuelR : maxPrefixBits (splitPfx base).2 - (splitPfx base).2.bits < n := by
        rw [maxPrefixBits_splitPfx_snd, splitPfx_snd_bits]
        omega
    · -- branch where the left half overlaps remove
      have hlmem : (splitPfx base).1.containsA remove.addr = true := by
        rcases (hpart remove.addr).1.mp hbcr with hl | hr
        · exact hl
        · exfalso
          have hsub := containsA_mono (p := (splitPfx base).2) (q := remove)
            (by rw [splitPfx_snd_bits]; omega) hr
          obtain ⟨x, hx1, hx2⟩ := Pfx.overlaps_iff_shared.mp h4
          exact (hpart x).2 ⟨hx2, hsub x hx1⟩
      have hsubl := containsA_mono (p := (splitPfx base).1) (q := remove)
        (by rw [splitPfx_fst_bits]; omega) hlmem
      have hih := ih (splitPfx base).1 remove hfuelL (splitPfx_fst_valid hbv hblt)
        (splitPfx_fst_canonical hbc) hrv hrc
        (by rw [splitPfx_fst_family, hf]) a
      rw [coversAddr_append, hih, coversAddr_cons, coversAddr_nil, Bool.or_false]
      have hB : base.containsA a =
          ((splitPfx base).1.containsA a || (splitPfx base).2.containsA a) := by
        rw [Bool.eq_iff_iff]
        simp only [Bool.or_eq_true]
        exact (hpart a).1
      have f1 := (hpart a).2
      have f2 := hsubl a
      rw [hB]
      cases hl : (splitPfx base).1.containsA a <;>
        cases hrt : (splitPfx base).2.containsA a <;>
        cases hra : remove.containsA a <;> simp_all
    · -- branch where the right half overlaps remove
      rw [Bool.not_eq_true] at h4
      have hrtmem : (splitPfx base).2.containsA remove.addr = true := by
        rcases (hpart remove.addr).1.mp hbcr with hl | hr
        · exfalso
          have hshared : remove.overlaps (splitPfx base).1 = true := by
            rw [Pfx.overlaps_comm]
            exact Pfx.overlaps_iff_shared.mpr
              ⟨remove.addr, hl, Pfx.containsA_self remove⟩
          rw [h4] at hshared
          exact Bool.false_ne_true hshared
        · exact hr
      have hsubrt := containsA_mono (p := (splitPfx base).2) (q := remove)
        (by rw [splitPfx_snd_bits]; omega) hrtmem
      have hih := ih (splitPfx base).2 remove hfuelR
        (splitPfx_snd_valid hbv hbc hblt) (splitPfx_snd_canonical hbc hblt) hrv hrc
        (by rw [splitPfx_snd_family, hf]) a
      rw [coversAddr_cons, hih]
      have hB : base.containsA a =
          ((splitPfx base).1.containsA a || (splitPfx base).2.containsA a) := by
        rw [Bool.eq_iff_iff]
        simp only [Bool.or_eq_true]
        exact (hpart a).1
      have f1 := (hpart a).2
      have f2 := hsubrt a
      rw [hB]
      cases hl : (splitPfx base).1.containsA a <;>
        cases hrt : (splitPfx base).2.containsA a <;>
        cases hra : remove.containsA a <;> simp_all

theorem subtractPfx_covers {base remove : Pfx} (hbv : base.Valid) (hbc : base.Canonical)
    (hrv : remove.Valid) (hrc : remove.Canonical)
    (hf : base.addr.family = remove.addr.family) (a : Addr) :
    coversAddr (subtractPfx base remove) a =
      (base.containsA a && !(remove.containsA a)) := by
  rw [← subtractPfxF_eq_subtractPfx (maxPrefixBits base - base.bits + 1) base remove
    (by omega)]
  exact subtractPfxF_covers _ _ _ (by omega) hbv hbc hrv hrc hf a

theorem fragShape_subset {base q : Pfx} (h : FragShape base q) :
    ∀ a : Addr, q.containsA a = true → base.masked.containsA a = true := by
  obtain ⟨hqc, -, hqb, hcon, -⟩ := h
  intro a ha
  exact containsA_mono (by rw [Pfx.masked_bits]; exact hqb) hcon a ha

theorem split_below {p : Pfx} (hc : p.Canonical) (hb : p.bits < p.addr.family.width) :
    ∀ a1 a2 : Addr, (splitPfx p).1.containsA a1 = true →
      (splitPfx p).2.containsA a2 = true → a1.val < a2.val := by
  intro a1 a2 h1 h2
  have hlc := splitPfx_fst_canonical hc
  have hrc := splitPfx_snd_canonical hc hb
  have hub := (containsA_bounds hlc h1).2
  have hlb := (containsA_bounds hrc h2).1
  rw [splitPfx_fst] at hub
  rw [splitPfx_snd_eq hc hb] at hlb
  dsimp only at hub hlb
  have he : p.addr.family.width - (p.bits + 1) = p.addr.family.width - 1 - p.bits := by
    omega
  rw [he] at hub
  omega

theorem subtractPfxF_ordered :
    ∀ (fuel : Nat) (base remove : Pfx),
      (subtractPfxF fuel base remove).Pairwise
        (fun p q => ∀ a1 a2 : Addr, p.containsA a1 = true → q.containsA a2 = true →
          a1.val < a2.val) := by
  intro fuel
  induction fuel with
  | zero =>
    intro base remove
    exact List.pairwise_singleton _ _
  | succ n ih =>
    intro base remove
    simp only [subtractPfxF]
    split_ifs with h1 h2 h3 h4
    · exact List.pairwise_singleton _ _
    · exact List.Pairwise.nil
    · exact List.pairwise_singleton _ _
    · have hblt : base.masked.bits < base.masked.addr.family.width := by
        rw [maxPrefixBits_eq_width] at h3
        omega
      rw [List.pairwise_append]
      refine ⟨ih _ _, List.pairwise_singleton _ _, ?_⟩
      intro p hp rt hrt a1 a2 ha1 ha2
      rw [List.mem_singleton] at hrt
      subst hrt
      have hshape := subtractPfxF_shape n _ remove p hp
      have hlc : (splitPfx base.masked).1.Canonical :=
        splitPfx_fst_canonical (Pfx.masked_canonical base)
      have hlm : (splitPfx base.masked).1.masked = (splitPfx base.masked).1 := hlc
      have ha1l : (splitPfx base.masked).1.containsA a1 = true := by
        have := fragShape_subset hshape a1 ha1
        rw [hlm] at this
        exact this
      exact split_below (Pfx.masked_canonical base) hblt a1 a2 ha1l ha2
    · have hblt : base.masked.bits < base.masked.addr.family.width := by
        rw [maxPrefixBits_eq_width] at h3
        omega
      rw [List.pairwise_cons]
      refine ⟨?_, ih _ _⟩
      intro q hq a1 a2 ha1 ha2
      have hshape := subtractPfxF_shape n _ remove q hq
      have hrc2 : (splitPfx base.masked).2.Canonical :=
        splitPfx_snd_canonical (Pfx.masked_canonical base) hblt
      have hrm2 : (splitPfx base.masked).2.masked = (splitPfx base.masked).2 := hrc2
      have ha2r : (splitPfx base.masked).2.containsA a2 = true := by
        have := fragShape_subset hshape a2 ha2
        rw [hrm2] at this
        exact this
      exact split_below (Pfx.masked_canonical base) hblt a1 a2 ha1 ha2r

theorem subtractPfx_ordered (base remove : Pfx) :
    (subtractPfx base remove).Pairwise
      (fun p q => ∀ a1 a2 : Addr, p.containsA a1 = true → q.containsA a2 = true →
        a1.val < a2.val) := by
  rw [← subtractPfxF_eq_subtractPfx (maxPrefixBits base - base.bits + 1) base remove
    (by omega)]
  exact subtractPfxF_ordered _ _ _

theorem subtractPfx_of_not_overlaps {base remove : Pfx}
    (h : base.masked.overlaps remove.masked = false) :
    subtractPfx base remove = [base.masked] := by
  rw [subtractPfx.eq_def, h]
  simp

theorem overlaps_eq_false_of_disjoint {p q : Pfx}
    (h : ∀ a : Addr, ¬(p.containsA a = true ∧ q.containsA a = true)) :
    p.overlaps q = false := by
  cases hc : p.overlaps q
  · rfl
  · obtain ⟨a, h1, h2⟩ := Pfx.overlaps_iff_shared.mp hc
    exact absurd ⟨h1, h2⟩ (h a)

theorem family_eq_iff_is4 (x y : Addr) : x.is4 = y.is4 ↔ x.family = y.family := by
  unfold Addr.is4
  cases hx : x.family <;> cases hy : y.family <;> simp

theorem foldl_excludeStep_structure (b : Pfx) :
    ∀ (rs acc : List Pfx),
      (∀ f ∈ acc, f.Canonical ∧ f.Valid ∧ f.addr.family = b.addr.family) →
      ∀ q ∈ rs.foldl (excludeStep b) acc,
        (q.Canonical ∧ q.Valid ∧ q.addr.family = b.addr.family) ∧
          ∃ f ∈ acc, ∀ a : Addr, q.containsA a = true → f.containsA a = true := by
  intro rs
  induction rs with
  | nil =>
    intro acc hacc q hq
    exact ⟨hacc q hq, q, hq, fun a ha => ha⟩
  | cons r rs ih =>
    intro acc hacc q hq
    rw [List.foldl_cons] at hq
    have hacc' : ∀ f ∈ excludeStep b acc r,
        f.Canonical ∧ f.Valid ∧ f.addr.family = b.addr.family := by
      intro f hf
      unfold excludeStep at hf
      by_cases hskip : (b.addr.is4 != r.addr.is4) = true
      · rw [if_pos hskip] at hf
        exact hacc f hf
      · rw [if_neg hskip] at hf
        rw [List.mem_flatMap] at hf
        obtain ⟨f0, hf0, hmem⟩ := hf
        obtain ⟨hc0, hv0, hfam0⟩ := hacc f0 hf0
        obtain ⟨hfc, hff, -, -, hfv⟩ := subtractPfx_shape hmem
        exact ⟨hfc, hfv hv0, hff.trans hfam0⟩
    obtain ⟨hC, f', hf', hsub'⟩ := ih (excludeStep b acc r) hacc' q hq
    refine ⟨hC, ?_⟩
    unfold excludeStep at hf'
    by_cases hskip : (b.addr.is4 != r.addr.is4) = true
    · rw [if_pos hskip] at hf'
      exact ⟨f', hf', hsub'⟩
    · rw [if_neg hskip] at hf'
      rw [List.mem_flatMap] at hf'
      obtain ⟨f0, hf0, hmem⟩ := hf'
      refine ⟨f0, hf0, fun a ha => ?_⟩
      have hs := fragShape_subset (subtractPfx_shape hmem) a (hsub' a ha)
      have hm0 : f0.masked = f0 := (hacc f0 hf0).1
      rw [hm0] at hs
      exact hs

theorem foldl_excludeStep_disjoint (b : Pfx) :
    ∀ (rs acc : List Pfx),
      (∀ f ∈ acc, f.Canonical ∧ f.Valid ∧ f.addr.family = b.addr.family) →
      (∀ r ∈ rs, r.Valid) →
      ∀ q ∈ rs.foldl (excludeStep b) acc, ∀ r ∈ rs,
        r.addr.family = b.addr.family →
        ∀ a : Addr, ¬(q.containsA a = true ∧ r.masked.containsA a = true) := by
  intro rs
  induction rs with
  | nil =>
    intro acc hacc hrv q hq r hr
    exact absurd hr (List.not_mem_nil r)
  | cons r0 rs ih =>
    intro acc hacc hrv q hq r hr hfam a
    rintro ⟨hqa, hra⟩
    rw [List.foldl_cons] at hq
    have hacc' : ∀ f ∈ excludeStep b acc r0,
        f.Canonical ∧ f.Valid ∧ f.addr.family = b.addr.family := by
      intro f hf
      unfold excludeStep at hf
      by_cases hskip : (b.addr.is4 != r0.addr.is4) = true
      · rw [if_pos hskip] at hf
        exact hacc f hf
      · rw [if_neg hskip] at hf
        rw [List.mem_flatMap] at hf
        obtain ⟨f0, hf0, hmem⟩ := hf
        obtain ⟨hc0, hv0, hfam0⟩ := hacc f0 hf0
        obtain ⟨hfc, hff, -, -, hfv⟩ := subtractPfx_shape hmem
        exact ⟨hfc, hfv hv0, hff.trans hfam0⟩
    rw [List.mem_cons] at hr
    rcases hr with rfl | hr
    · -- head exclusion: q lies inside a fragment produced by subtracting it
      obtain ⟨-, f', hf', hsub'⟩ :=
        foldl_excludeStep_structure b rs (excludeStep b acc r) hacc' q hq
      have hskip : (b.addr.is4 != r.addr.is4) = false := by
        rw [bne_eq_false_iff_eq]
        exact (family_eq_iff_is4 b.addr r.addr).mpr hfam.symm
      unfold excludeStep at hf'
      rw [if_neg (by rw [hskip]; exact Bool.false_ne_true)] at hf'
      rw [List.mem_flatMap] at hf'
      obtain ⟨f0, hf0, hmem⟩ := hf'
      obtain ⟨hc0, hv0, hfam0⟩ := hacc f0 hf0
      have hcov := subtractPfx_covers hv0 hc0
        (Pfx.masked_valid (hrv r (List.mem_cons_self r rs)))
        (Pfx.masked_canonical r)
        (by rw [Pfx.masked_family, hfam0, hfam]) a
      have hin : coversAddr (subtractPfx f0 r.masked) a = true := by
        unfold coversAddr
        rw [List.any_eq_true]
        exact ⟨f', hmem, hsub' a hqa⟩
      rw [hcov, Bool.and_eq_true] at hin
      have hnr := hin.2
      rw [Bool.not_eq_true'] at hnr
      rw [hnr] at hra
      exact Bool.false_ne_true hra
    · exact ih (excludeStep b acc r0) hacc'
        (fun r' hr' => hrv r' (List.mem_cons_of_mem r0 hr')) q hq r hr hfam a ⟨hqa, hra⟩

theorem baseFragments_spec {b : Pfx} {removes : List Pfx} (hbv : b.Valid)
    (hrv : ∀ r ∈ removes, r.Valid) :
    ∀ q ∈ baseFragments b removes,
      (q.Canonical ∧ q.Valid ∧ q.addr.family = b.addr.family) ∧
        (∀ r ∈ removes, r.addr.family = b.addr.family →
          ∀ a : Addr, ¬(q.containsA a = true ∧ r.masked.containsA a = true)) := by
  intro q hq
  have hacc : ∀ f ∈ [b.masked],
      f.Canonical ∧ f.Valid ∧ f.addr.family = b.addr.family := by
    intro f hf
    rw [List.mem_singleton] at hf
    subst hf
    exact ⟨Pfx.masked_canonical b, Pfx.masked_valid hbv, Pfx.masked_family b⟩
  unfold baseFragments at hq
  exact ⟨(foldl_excludeStep_structure b removes [b.masked] hacc q hq).1,
    foldl_excludeStep_disjoint b removes [b.masked] hacc hrv q hq⟩

theorem foldl_excludeStep_fixed (b q : Pfx) (hqc : q.Canonical)
    (hfb : q.addr.family = b.addr.family) :
    ∀ rs : List Pfx,
      (∀ r ∈ rs, r.addr.family = q.addr.family →
        ∀ a : Addr, ¬(q.containsA a = true ∧ r.masked.containsA a = true)) →
      rs.foldl (excludeStep b) [q] = [q] := by
  intro rs
  induction rs with
  | nil => intro _; rfl
  | cons r rs ih =>
    intro h
    rw [List.foldl_cons]
    have hstep : excludeStep b [q] r = [q] := by
      unfold excludeStep
      by_cases hskip : (b.addr.is4 != r.addr.is4) = true
      · rw [if_pos hskip]
      · rw [if_neg hskip]
        have hbr : b.addr.is4 = r.addr.is4 := by
          revert hskip; cases b.addr.is4 <;> cases r.addr.is4 <;> simp
        have hrq : r.addr.family = q.addr.family :=
          ((family_eq_iff_is4 b.addr r.addr).mp hbr).symm.trans hfb.symm
        rw [List.flatMap_cons, List.flatMap_nil, List.append_nil]
        have hmm : (r.masked).masked = r.masked := Pfx.masked_canonical r
        have hno : q.masked.overlaps (r.masked).masked = false := by
          rw [hqc, hmm]
          exact overlaps_eq_false_of_disjoint
            (h r (List.mem_cons_self r rs) hrq)
        rw [subtractPfx_of_not_overlaps hno, hqc]
    rw [hstep]
    exact ih (fun r' hr' => h r' (List.mem_cons_of_mem r hr'))

theorem foldl_excludeStep_filter (b : Pfx) :
    ∀ (rs acc : List Pfx),
      (rs.filter (fun r => r.addr.is4 == b.addr.is4)).foldl (excludeStep b) acc =
        rs.foldl (excludeStep b) acc := by
  intro rs
  induction rs with
  | nil => intro acc; rfl
  | cons r rs ih =>
    intro acc
    by_cases hf : (r.addr.is4 == b.addr.is4) = true
    · rw [List.filter_cons, if_pos hf, List.foldl_cons, List.foldl_cons, ih]
    · rw [List.filter_cons, if_neg hf, List.foldl_cons, ih]
      have hbne : (b.addr.is4 != r.addr.is4) = true := by
        revert hf; cases b.addr.is4 <;> cases r.addr.is4 <;> simp
      have hstep : excludeStep b acc r = acc := by
        unfold excludeStep
        rw [if_pos hbne]
      rw [hstep]

theorem baseFragments_filter (b : Pfx) (removes : List Pfx) :
    baseFragments b (removes.filter (fun r => r.addr.is4 == b.addr.is4)) =
      baseFragments b removes := by
  unfold baseFragments
  exact foldl_excludeStep_filter b removes [b.masked]

theorem subtractPrefixList_singleton (b : Pfx) (removes : List Pfx) :
    subtractPrefixList [b] removes = baseFragments b removes := by
  unfold subtractPrefixList
  rw [List.flatMap_cons, List.flatMap_nil, List.append_nil]

theorem subtractPrefixList_flatMap (bases removes : List Pfx) :
    subtractPrefixList bases removes =
      bases.flatMap (fun b => subtractPrefixList [b] removes) := by
  unfold subtractPrefixList
  congr 1
  funext b
  rw [List.flatMap_cons, List.flatMap_nil, List.append_nil]

theorem flatMap_fixed {L : List Pfx} {g : Pfx → List Pfx}
    (h : ∀ q ∈ L, g q = [q]) : L.flatMap g = L := by
  induction L with
  | nil => rfl
  | cons x xs ih =>
    rw [List.flatMap_cons, h x (List.mem_cons_self x xs),
      ih (fun q hq => h q (List.mem_cons_of_mem x hq))]
    rfl

theorem subtractPrefixList_idem {bases removes : List Pfx}
    (hb : ∀ p ∈ bases, p.Valid) (hr : ∀ r ∈ removes, r.Valid) :
    subtractPrefixList (subtractPrefixList bases removes) removes =
      subtractPrefixList bases removes := by
  apply flatMap_fixed
  intro q hq
  simp only [subtractPrefixList, List.mem_flatMap] at hq
  obtain ⟨b, hbmem, hqmem⟩ := hq
  obtain ⟨⟨hqc, hqv, hqf⟩, hdisj⟩ := baseFragments_spec (hb b hbmem) hr q hqmem
  show baseFragments q removes = [q]
  unfold baseFragments
  rw [hqc]
  exact foldl_excludeStep_fixed q q hqc rfl removes
    (fun r hr' hfam a => hdisj r hr' (hfam.trans hqf) a)

@[simp]
theorem Pfx.masked_masked (p : Pfx) : p.masked.masked = p.masked :=
  Pfx.masked_canonical p

theorem subtractPfxF_masked_inputs :
    ∀ (fuel : Nat) (base remove : Pfx),
      subtractPfxF fuel base remove = subtractPfxF fuel base.masked remove.masked := by
  intro fuel
  induction fuel with
  | zero =>
    intro base remove
    simp [subtractPfxF]
  | succ n ih =>
    intro base remove
    have key : ∀ b r : Pfx, subtractPfxF n b r = subtractPfxF n b r.masked := by
      intro b r
      rw [ih b r, ih b r.masked, Pfx.masked_masked]
    simp only [subtractPfxF, Pfx.masked_masked]
    rw [key (splitPfx base.masked).1 remove, key (splitPfx base.masked).2 remove]

theorem subtractPfx_masked_inputs (base remove : Pfx) :
    subtractPfx base remove = subtractPfx base.masked remove.masked := by
  rw [← subtractPfxF_eq_subtractPfx (maxPrefixBits base - base.bits + 1) base remove
      (by omega),
    ← subtractPfxF_eq_subtractPfx (maxPrefixBits base - base.bits + 1) base.masked
      remove.masked (by rw [maxPrefixBits_masked, Pfx.masked_bits]; omega)]
  exact subtractPfxF_masked_inputs _ _ _

theorem excludeStep_masked_b (b : Pfx) : excludeStep b.masked = excludeStep b := rfl

theorem excludeStep_masked_r (b : Pfx) (acc : List Pfx) (r : Pfx) :
    excludeStep b acc r.masked = excludeStep b acc r := by
  unfold excludeStep
  have hc : (r.masked.addr.is4 : Bool) = r.addr.is4 := rfl
  rw [hc]
  by_cases hskip : (b.addr.is4 != r.addr.is4) = true
  · rw [if_pos hskip, if_pos hskip]
  · rw [if_neg hskip, if_neg hskip]
    congr 1
    funext f
    rw [subtractPfx_masked_inputs f r.masked.masked, subtractPfx_masked_inputs f r.masked,
      Pfx.masked_masked]

theorem baseFragments_masked (b : Pfx) (removes : List Pfx) :
    baseFragments b.masked (removes.map Pfx.masked) = baseFragments b removes := by
  unfold baseFragments
  rw [excludeStep_masked_b, Pfx.masked_masked]
  suffices h : ∀ (rs acc : List Pfx),
      (rs.map Pfx.masked).foldl (excludeStep b) acc = rs.foldl (excludeStep b) acc from
    h removes [b.masked]
  intro rs
  induction rs with
  | nil => intro acc; rfl
  | cons r rs ih =>
    intro acc
    rw [List.map_cons, List.foldl_cons, List.foldl_cons, excludeStep_masked_r, ih]

theorem subtractPrefixList_masked (bases removes : List Pfx) :
    subtractPrefixList (bases.map Pfx.masked) (removes.map Pfx.masked) =
      subtractPrefixList bases removes := by
  unfold subtractPrefixList
  induction bases with
  | nil => rfl
  | cons b bs ih =>
    rw [List.map_cons, List.flatMap_cons, List.flatMap_cons, ih, baseFragments_masked]

theorem foldl_excludeStep_canonical (b : Pfx) :
    ∀ (rs acc : List Pfx), (∀ f ∈ acc, f.Canonical) →
      ∀ q ∈ rs.foldl (excludeStep b) acc, q.Canonical := by
  intro rs
  induction rs with
  | nil =>
    intro acc hacc q hq
    exact hacc q hq
  | cons r rs ih =>
    intro acc hacc q hq
    rw [List.foldl_cons] at hq
    refine ih (excludeStep b acc r) ?_ q hq
    intro f hf
    unfold excludeStep at hf
    by_cases hskip : (b.addr.is4 != r.addr.is4) = true
    · rw [if_pos hskip] at hf
      exact hacc f hf
    · rw [if_neg hskip] at hf
      rw [List.mem_flatMap] at hf
      obtain ⟨f0, hf0, hmem⟩ := hf
      exact (subtractPfx_shape hmem).1

theorem subtractPrefixList_canonical {bases removes : List Pfx} :
    ∀ q ∈ subtractPrefixList bases removes, q.Canonical := by
  intro q hq
  simp only [subtractPrefixList, List.mem_flatMap] at hq
  obtain ⟨b, hbmem, hqmem⟩ := hq
  unfold baseFragments at hqmem
  refine foldl_excludeStep_canonical b removes [b.masked] ?_ q hqmem
  intro f hf
  rw [List.mem_singleton] at hf
  subst hf
  exact Pfx.masked_canonical b

/-- C1: for every two canonical prefixes A and B of the same address
family, the set of addresses covered by the union of the prefixes returned
by subtractPrefix(A, B) equals exactly the set of addresses in A that are
not in B (stated pointwise for every address of the model). -/
theorem subtractPfx_coverage_spec (b r : Pfx) (hbv : b.Valid) (hbc : b.Canonical)
    (hrv : r.Valid) (hrc : r.Canonical) (hf : b.addr.family = r.addr.family)
    (a : Addr) :
    coversAddr (subtractPfx b r) a = (b.containsA a && !(r.containsA a)) :=
  subtractPfx_covers hbv hbc hrv hrc hf a

theorem subtractPfx_coverage_spec_witness :
    (⟨⟨Family.v4, 167772160⟩, 24⟩ : Pfx).Valid ∧
    (⟨⟨Family.v4, 167772160⟩, 24⟩ : Pfx).Canonical ∧
    (⟨⟨Family.v4, 167772288⟩, 25⟩ : Pfx).Valid ∧
    (⟨⟨Family.v4, 167772288⟩, 25⟩ : Pfx).Canonical ∧
    coversAddr
        (subtractPfx ⟨⟨Family.v4, 167772160⟩, 24⟩ ⟨⟨Family.v4, 167772288⟩, 25⟩)
        ⟨Family.v4, 167772165⟩ =
      ((⟨⟨Family.v4, 167772160⟩, 24⟩ : Pfx).containsA ⟨Family.v4, 167772165⟩ &&
        !((⟨⟨Family.v4, 167772288⟩, 25⟩ : Pfx).containsA ⟨Family.v4, 167772165⟩)) :=
  ⟨by decide, by decide, by decide, by decide,
    subtractPfx_coverage_spec ⟨⟨Family.v4, 167772160⟩, 24⟩ ⟨⟨Family.v4, 167772288⟩, 25⟩
      (by decide) (by decide) (by decide) (by decide) rfl ⟨Family.v4, 167772165⟩⟩

/-- C2: for every two canonical same-family prefixes A and B, the prefixes
returned by subtractPrefix(A, B) are pairwise disjoint: no address belongs
to two distinct returned fragments. -/
theorem subtractPfx_disjoint_spec (b r : Pfx) (_hbc : b.Canonical) (_hrc : r.Canonical)
    (_hf : b.addr.family = r.addr.family) :
    (subtractPfx b r).Pairwise
      (fun p q => ∀ a : Addr, ¬(p.containsA a = true ∧ q.containsA a = true)) := by
  refine (subtractPfx_ordered b r).imp ?_
  intro p q h a
  rintro ⟨h1, h2⟩
  exact absurd (h a a h1 h2) (Nat.lt_irrefl _)

theorem subtractPfx_disjoint_spec_witness :
    (⟨⟨Family.v4, 167772160⟩, 24⟩ : Pfx).Canonical ∧
    (⟨⟨Family.v4, 167772288⟩, 25⟩ : Pfx).Canonical ∧
    (subtractPfx ⟨⟨Family.v4, 167772160⟩, 24⟩ ⟨⟨Family.v4, 167772288⟩, 25⟩).Pairwise
      (fun p q => ∀ a : Addr, ¬(p.containsA a = true ∧ q.containsA a = true)) :=
  ⟨by decide, by decide,
    subtractPfx_disjoint_spec ⟨⟨Family.v4, 167772160⟩, 24⟩ ⟨⟨Family.v4, 167772288⟩, 25⟩
      (by decide) (by decide) rfl⟩

/-- C4: subtractPrefix returns its fragments concatenated in address
order, the fragment covering lower addresses first (every address of an
earlier fragment is below every address of a later one); in particular,
subtracting the host 192.168.1.1/32 from 192.168.1.0/24 yields exactly
the 8 disjoint fragments 192.168.1.0/32, 192.168.1.2/31, 192.168.1.4/30,
192.168.1.8/29, 192.168.1.16/28, 192.168.1.32/27, 192.168.1.64/26,
192.168.1.128/25, in that order, whose lengths are 32..25 and which
jointly cover every address of 192.168.1.0/24 except 192.168.1.1. -/
theorem subtractPfx_address_order_spec :
    (∀ b r : Pfx, b.Valid → b.Canonical → r.Valid → r.Canonical →
      b.addr.family = r.addr.family →
      (subtractPfx b r).Pairwise
        (fun p q => ∀ a1 a2 : Addr, p.containsA a1 = true → q.containsA a2 = true →
          a1.val < a2.val)) ∧
    subtractPfx ⟨⟨Family.v4, 3232235776⟩, 24⟩ ⟨⟨Family.v4, 3232235777⟩, 32⟩ =
      [⟨⟨Family.v4, 3232235776⟩, 32⟩, ⟨⟨Family.v4, 3232235778⟩, 31⟩,
       ⟨⟨Family.v4, 3232235780⟩, 30⟩, ⟨⟨Family.v4, 3232235784⟩, 29⟩,
       ⟨⟨Family.v4, 3232235792⟩, 28⟩, ⟨⟨Family.v4, 3232235808⟩, 27⟩,
       ⟨⟨Family.v4, 3232235840⟩, 26⟩, ⟨⟨Family.v4, 3232235904⟩, 25⟩] := by
  constructor
  · intro b r _ _ _ _ _
    exact subtractPfx_ordered b r
  · rw [← subtractPfxF_eq_subtractPfx 33 ⟨⟨Family.v4, 3232235776⟩, 24⟩
      ⟨⟨Family.v4, 3232235777⟩, 32⟩ (by decide)]
    decide

theorem subtractPfx_address_order_spec_witness :
    (⟨⟨Family.v4, 167772160⟩, 24⟩ : Pfx).Valid ∧
    (⟨⟨Family.v4, 167772160⟩, 24⟩ : Pfx).Canonical ∧
    (⟨⟨Family.v4, 167772288⟩, 25⟩ : Pfx).Valid ∧
    (⟨⟨Family.v4, 167772288⟩, 25⟩ : Pfx).Canonical ∧
    (subtractPfx ⟨⟨Family.v4, 167772160⟩, 24⟩ ⟨⟨Family.v4, 167772288⟩, 25⟩).Pairwise
      (fun p q => ∀ a1 a2 : Addr, p.containsA a1 = true → q.containsA a2 = true →
        a1.val < a2.val) :=
  ⟨by decide, by decide, by decide, by decide,
    subtractPfx_address_order_spec.1 ⟨⟨Family.v4, 167772160⟩, 24⟩
      ⟨⟨Family.v4, 167772288⟩, 25⟩ (by decide) (by decide) (by decide) (by decide) rfl⟩

/-- C5: subtractPrefixList is idempotent in its exclusion list: applying
the same exclusion list a second time to the first result returns the
first result unchanged (for lists of valid prefixes, as netip
constructs). -/
theorem subtractPrefixList_idem_spec (bases removes : List Pfx)
    (hb : ∀ p ∈ bases, p.Valid) (hr : ∀ r ∈ removes, r.Valid) :
    subtractPrefixList (subtractPrefixList bases removes) removes =
      subtractPrefixList bases removes :=
  subtractPrefixList_idem hb hr

theorem subtractPrefixList_idem_spec_witness :
    (∀ p ∈ [(⟨⟨Family.v4, 167772160⟩, 24⟩ : Pfx)], p.Valid) ∧
    (∀ r ∈ [(⟨⟨Family.v4, 167772288⟩, 25⟩ : Pfx), (⟨⟨Family.v6, 0⟩, 1⟩ : Pfx)],
      r.Valid) ∧
    subtractPrefixList
        (subtractPrefixList [⟨⟨Family.v4, 167772160⟩, 24⟩]
          [⟨⟨Family.v4, 167772288⟩, 25⟩, ⟨⟨Family.v6, 0⟩, 1⟩])
        [⟨⟨Family.v4, 167772288⟩, 25⟩, ⟨⟨Family.v6, 0⟩, 1⟩] =
      subtractPrefixList [⟨⟨Family.v4, 167772160⟩, 24⟩]
        [⟨⟨Family.v4, 167772288⟩, 25⟩, ⟨⟨Family.v6, 0⟩, 1⟩] :=
  ⟨by decide, by decide,
    subtractPrefixList_idem_spec [⟨⟨Family.v4, 167772160⟩, 24⟩]
      [⟨⟨Family.v4, 167772288⟩, 25⟩, ⟨⟨Family.v6, 0⟩, 1⟩] (by decide) (by decide)⟩

/-- C6: exclusions of the other address family never affect a base range:
the fragments subtractPrefixList computes for a base are unchanged when
every exclusion of the opposite family is filtered out of the exclusion
list, and the whole output is the concatenation of these per-base
fragment lists. -/
theorem subtractPrefixList_family_isolation_spec (b : Pfx) (bases removes : List Pfx) :
    subtractPrefixList [b] (removes.filter (fun r => r.addr.is4 == b.addr.is4)) =
      subtractPrefixList [b] removes ∧
    subtractPrefixList bases removes =
      bases.flatMap (fun bb => subtractPrefixList [bb] removes) := by
  constructor
  · rw [subtractPrefixList_singleton, subtractPrefixList_singleton, baseFragments_filter]
  · exact subtractPrefixList_flatMap bases removes

/-- C7: every prefix returned by subtractPrefix and by subtractPrefixList
is in canonical (masked) form, and both operations mask their inputs
before use, so the result on any input equals the result on its masked
form. -/
theorem subtract_canonical_spec (b r : Pfx) (bases removes : List Pfx) :
    (subtractPfx b r).all (fun q => q.masked == q) = true ∧
    (subtractPrefixList bases removes).all (fun q => q.masked == q) = true ∧
    subtractPfx b r = subtractPfx b.masked r.masked ∧
    subtractPrefixList bases removes =
      subtractPrefixList (bases.map Pfx.masked) (removes.map Pfx.masked) := by
  refine ⟨?_, ?_, subtractPfx_masked_inputs b r,
    (subtractPrefixList_masked bases removes).symm⟩
  · rw [List.all_eq_true]
    intro q hq
    rw [beq_iff_eq]
    exact (subtractPfx_shape hq).1
  · rw [List.all_eq_true]
    intro q hq
    rw [beq_iff_eq]
    exact subtractPrefixList_canonical q hq

/-- C8: subtractPrefix terminates with a defined result on every input
pair and raises no error: the recursion never needs more than
maxPrefixBits(base) + 1 nested evaluations (one initial call plus at most
width recursive calls, 32 for the 32-bit family and 128 for the 128-bit
family), as witnessed by agreement with the fuel-bounded evaluator at
fuel maxPrefixBits(base) + 1. -/
theorem subtractPfx_total_bounded_spec :
    (∀ base remove : Pfx,
      subtractPfxF (maxPrefixBits base + 1) base remove = subtractPfx base remove) ∧
    (∀ (v bits : Nat), maxPrefixBits ⟨⟨Family.v4, v⟩, bits⟩ = 32) ∧
    (∀ (v bits : Nat), maxPrefixBits ⟨⟨Family.v6, v⟩, bits⟩ = 128) :=
  ⟨fun base remove => subtractPfxF_eq_subtractPfx _ base remove (by omega),
    fun _ _ => rfl, fun _ _ => rfl⟩

/-- C9: in the recursive step of subtractPrefix, under the preconditions
that base and remove are canonical same-family prefixes, base overlaps
remove, remove does not contain base, and base's length is below the
family width, exactly one of the two halves produced by splitPrefix(base)
overlaps remove; and a half that does not overlap remove shares no
address with it, so returning it whole is safe. -/
theorem splitPfx_exactly_one_overlaps_spec (b r : Pfx) (_hbv : b.Valid)
    (hbc : b.Canonical) (_hrv : r.Valid) (_hrc : r.Canonical)
    (hf : b.addr.family = r.addr.family)
    (hov : b.overlaps r = true)
    (hnc : ¬(r.containsA b.addr = true ∧ r.bits ≤ b.bits))
    (hblt : b.bits < maxPrefixBits b) :
    ((r.overlaps (splitPfx b).1 = true ∧ r.overlaps (splitPfx b).2 = false) ∨
      (r.overlaps (splitPfx b).1 = false ∧ r.overlaps (splitPfx b).2 = true)) ∧
    (∀ q : Pfx, r.overlaps q = false →
      ∀ a : Addr, ¬(r.containsA a = true ∧ q.containsA a = true)) := by
  have hw := maxPrefixBits_eq_width b
  have hblt' : b.bits < b.addr.family.width := by omega
  refine ⟨?_, fun q hq a => overlaps_eq_false_disjoint hq a⟩
  have hrbgt : b.bits < r.bits := by
    by_contra hgt
    have hle := Nat.le_of_not_lt hgt
    obtain ⟨hfov, hdiv⟩ := Pfx.overlaps_iff.mp hov
    rw [Nat.min_eq_right hle] at hdiv
    refine hnc ⟨Pfx.containsA_iff.mpr ⟨hf.symm, ?_⟩, hle⟩
    have hww : r.addr.family.width = b.addr.family.width := by rw [hf]
    rw [hww]
    exact hdiv
  have hbcr : b.containsA r.addr = true := by
    obtain ⟨hfov, hdiv⟩ := Pfx.overlaps_iff.mp hov
    rw [Nat.min_eq_left (by omega : b.bits ≤ r.bits)] at hdiv
    exact Pfx.containsA_iff.mpr ⟨hf, hdiv.symm⟩
  have hpart := fun x => splitPfx_mem hbc hblt' x
  rcases (hpart r.addr).1.mp hbcr with hl | hr2
  · left
    have hsub := containsA_mono (p := (splitPfx b).1) (q := r)
      (by rw [splitPfx_fst_bits]; omega) hl
    constructor
    · rw [Pfx.overlaps_comm]
      exact Pfx.overlaps_iff_shared.mpr ⟨r.addr, hl, Pfx.containsA_self r⟩
    · apply overlaps_eq_false_of_disjoint
      rintro a ⟨h1, h2⟩
      exact (hpart a).2 ⟨hsub a h1, h2⟩
  · right
    have hsub := containsA_mono (p := (splitPfx b).2) (q := r)
      (by rw [splitPfx_snd_bits]; omega) hr2
    constructor
    · apply overlaps_eq_false_of_disjoint
      rintro a ⟨h1, h2⟩
      exact (hpart a).2 ⟨h2, hsub a h1⟩
    · rw [Pfx.overlaps_comm]
      exact Pfx.overlaps_iff_shared.mpr ⟨r.addr, hr2, Pfx.containsA_self r⟩

theorem splitPfx_exactly_one_overlaps_spec_witness :
    (⟨⟨Family.v4, 167772160⟩, 24⟩ : Pfx).Valid ∧
    (⟨⟨Family.v4, 167772160⟩, 24⟩ : Pfx).Canonical ∧
    (⟨⟨Family.v4, 167772161⟩, 32⟩ : Pfx).Valid ∧
    (⟨⟨Family.v4, 167772161⟩, 32⟩ : Pfx).Canonical ∧
    (⟨⟨Family.v4, 167772160⟩, 24⟩ : Pfx).overlaps ⟨⟨Family.v4, 167772161⟩, 32⟩ = true ∧
    ¬((⟨⟨Family.v4, 167772161⟩, 32⟩ : Pfx).containsA ⟨Family.v4, 167772160⟩ = true ∧
        (32 : Nat) ≤ 24) ∧
    (((⟨⟨Family.v4, 167772161⟩, 32⟩ : Pfx).overlaps
          (splitPfx ⟨⟨Family.v4, 167772160⟩, 24⟩).1 = true ∧
        (⟨⟨Family.v4, 167772161⟩, 32⟩ : Pfx).overlaps
          (splitPfx ⟨⟨Family.v4, 167772160⟩, 24⟩).2 = false) ∨
      ((⟨⟨Family.v4, 167772161⟩, 32⟩ : Pfx).overlaps
          (splitPfx ⟨⟨Family.v4, 167772160⟩, 24⟩).1 = false ∧
        (⟨⟨Family.v4, 167772161⟩, 32⟩ : Pfx).overlaps
          (splitPfx ⟨⟨Family.v4, 167772160⟩, 24⟩).2 = true)) :=
  ⟨by decide, by decide, by decide, by decide, by decide, by decide,
    (splitPfx_exactly_one_overlaps_spec ⟨⟨Family.v4, 167772160⟩, 24⟩
      ⟨⟨Family.v4, 167772161⟩, 32⟩ (by decide) (by decide) (by decide) (by decide) rfl
      (by decide) (by decide) (by decide)).1⟩

/-- C10: whenever subtractPrefix calls splitPrefix the base's length is
below its family width, so splitPrefix's bit manipulations stay in range:
for the 32-bit family the shift amount 31 - bits has bits at most 31, for
the 128-bit family the byte index bits / 8 is below 16 and the bit index
7 - bits % 8 is below 8, and both returned halves are valid prefixes of
length bits + 1, which is at most the family width. -/
theorem splitPfx_inrange_valid_spec (p : Pfx) (hv : p.Valid) (hc : p.Canonical)
    (hlt : p.bits < maxPrefixBits p) :
    (p.addr.family = Family.v4 → p.bits ≤ 31) ∧
    (p.bits / 8 < 16 ∧ 7 - p.bits % 8 < 8) ∧
    (splitPfx p).1.bits = p.bits + 1 ∧ (splitPfx p).2.bits = p.bits + 1 ∧
    p.bits + 1 ≤ maxPrefixBits p ∧ (splitPfx p).1.Valid ∧ (splitPfx p).2.Valid := by
  have hw := maxPrefixBits_eq_width p
  have hblt' : p.bits < p.addr.family.width := by omega
  have hw128 : p.addr.family.width ≤ 128 := by
    cases hfa : p.addr.family <;> decide
  refine ⟨?_, ⟨by omega, by omega⟩, splitPfx_fst_bits p, splitPfx_snd_bits p,
    by omega, splitPfx_fst_valid hv hblt', splitPfx_snd_valid hv hc hblt'⟩
  intro h4
  have h32 : p.addr.family.width = 32 := by rw [h4]; rfl
  omega

theorem splitPfx_inrange_valid_spec_witness :
    (⟨⟨Family.v4, 167772160⟩, 24⟩ : Pfx).Valid ∧
    (⟨⟨Family.v4, 167772160⟩, 24⟩ : Pfx).Canonical ∧
    24 < maxPrefixBits ⟨⟨Family.v4, 167772160⟩, 24⟩ ∧
    ((splitPfx ⟨⟨Family.v4, 167772160⟩, 24⟩).1.Valid ∧
      (splitPfx ⟨⟨Family.v4, 167772160⟩, 24⟩).2.Valid) :=
  ⟨by decide, by decide, by decide,
    (splitPfx_inrange_valid_spec ⟨⟨Family.v4, 167772160⟩, 24⟩ (by decide) (by decide)
      (by decide)).2.2.2.2.2⟩

/-- C3 (amended): if the exclusion specification does not trim to blank
and any of its tokens fails (so that parseWstunnelHostExcludes returns an
error: a token trims to empty, a slash token fails CIDR parsing, hostname
resolution fails, or a resolved address fails to parse), then
ApplyWstunnelHostExclusions returns that error and the configuration,
including every peer's AllowedIPs list, is exactly as it was before the
call: no exclusion is partially applied. -/
theorem applyExclusions_error_unchanged_spec
    (resolve : List Char → Option (List Char)) (parseCIDR : List Char → Option Pfx)
    (parseAddr : List Char → Option Addr) (config : Config) (e : ParseErr)
    (hne : trimSpace config.interface.wstunnelHost ≠ [])
    (herr : parseWstunnelHostExcludes resolve parseCIDR parseAddr
      config.interface.wstunnelHost = .error e) :
    ApplyWstunnelHostExclusions resolve parseCIDR parseAddr config =
      (.error e, config) := by
  unfold ApplyWstunnelHostExclusions
  rw [if_neg hne, herr]

theorem applyExclusions_error_unchanged_spec_witness :
    trimSpace ['x'] ≠ [] ∧
    parseWstunnelHostExcludes (fun _ => none) (fun _ => none) (fun _ => none) ['x'] =
      .error (.resolveFailed ['x']) ∧
    ApplyWstunnelHostExclusions (fun _ => none) (fun _ => none) (fun _ => none)
        ⟨⟨['x']⟩, [⟨[⟨⟨Family.v4, 167772160⟩, 24⟩]⟩]⟩ =
      (.error (.resolveFailed ['x']),
        ⟨⟨['x']⟩, [⟨[⟨⟨Family.v4, 167772160⟩, 24⟩]⟩]⟩) :=
  ⟨by decide, by rfl,
    applyExclusions_error_unchanged_spec (fun _ => none) (fun _ => none) (fun _ => none)
      ⟨⟨['x']⟩, [⟨[⟨⟨Family.v4, 167772160⟩, 24⟩]⟩]⟩ (.resolveFailed ['x'])
      (by decide) (by rfl)⟩

/-- C3 counterexample to the claim as frozen: a specification consisting
of a single all-whitespace token, so that the token trims to empty and
parseWstunnelHostExcludes fails with EmptyListEntry, for which
ApplyWstunnelHostExclusions nevertheless returns success (not an error),
because the blank specification short-circuits before any token is
examined (the peer list is still untouched). -/
theorem applyExclusions_blank_counterexample :
    parseWstunnelHostExcludes (fun _ => none) (fun _ => none) (fun _ => none) [' '] =
      .error .emptyListEntry ∧
    ApplyWstunnelHostExclusions (fun _ => none) (fun _ => none) (fun _ => none)
        ⟨⟨[' ']⟩, [⟨[⟨⟨Family.v4, 167772160⟩, 24⟩]⟩]⟩ =
      (.ok (), ⟨⟨[' ']⟩, [⟨[⟨⟨Family.v4, 167772160⟩, 24⟩]⟩]⟩) :=
  ⟨by rfl, by rfl⟩
